import Mathlib

/-!
A shallow embedding of the `pdf-writer` library (`src/lib.rs`).

The output buffer `Vec<u8>` is modelled as a list of characters (all bytes the
library emits are ASCII, so one character corresponds to one byte and
`buf.len()` corresponds to `List.length`).  The `write!`/`writeln!` macros
become pure appends.  Rust panics (`assert_eq!`, `expect`) are modelled by
`Except`/`Option` results whose error component carries the state at the
moment of the panic; since every assertion in the source runs before any
mutation, that state is the pre-call state.

Rust's decimal `Display` for integers and the `{:010}` zero-padded format are
modelled by `natStr`/`intStr`/`pad10` below, which produce standard decimal
digit strings.
-/

namespace Pdf

/-- Output buffers: one `Char` per byte. -/
abbrev Buf := List Char

/-- Accumulate the decimal digits of `n` (most significant first) onto `acc`;
the first argument is computation fuel (any amount at least `n` is enough). -/
def natStrGo : Nat → Nat → List Char → List Char
  | 0, _, acc => acc
  | fuel + 1, n, acc =>
      if n = 0 then acc else natStrGo fuel (n / 10) (Nat.digitChar (n % 10) :: acc)

/-- Decimal rendering of a natural number (Rust `Display` for unsigned ints). -/
def natStr (n : Nat) : List Char :=
  if n = 0 then ['0'] else natStrGo n n []

/-- Decimal rendering of an integer (Rust `Display` for signed ints). -/
def intStr (i : Int) : List Char :=
  if i < 0 then '-' :: natStr (-i).toNat else natStr i.toNat

/-- Rust's `{:010}` format: zero-pad the decimal form of `n` to width 10. -/
def pad10 (n : Nat) : List Char :=
  List.replicate (10 - (natStr n).length) '0' ++ natStr n

/-- Read a digit string back as a number, starting from accumulator `a`. -/
def decodeFrom (a : Nat) (l : List Char) : Nat :=
  l.foldl (fun acc c => acc * 10 + (c.toNat - 48)) a

/-- Decode a decimal digit string (the inverse of `natStr`/`pad10`). -/
def decodeDigits (l : List Char) : Nat := decodeFrom 0 l

/-- `Ref(NonZeroI32)`: an indirect reference wrapping a positive integer. -/
structure Ref where
  val : Int
  pos : 0 < val

instance : DecidableEq Ref := fun a b =>
  if h : a.val = b.val then
    isTrue (by cases a; cases b; cases h; rfl)
  else
    isFalse (fun e => h (congrArg Ref.val e))

/-- `Ref::new`: `none` models the panic on a non-positive argument. -/
def Ref.new (id : Int) : Option Ref :=
  if h : 0 < id then some ⟨id, h⟩ else none

/-- `Ref::get`. -/
def Ref.get (r : Ref) : Int := r.val

/-- `impl Display for Ref`: `"{} 0"` (generation is always zero). -/
def Ref.display (r : Ref) : List Char := intStr r.val ++ (" 0").toList

/-- `Rect`, polymorphic in the scalar type (`f32` in the source); `fmtReal`
arguments below stand for Rust's `Display` for `f32`. -/
structure Rect (R : Type) where
  x1 : R
  y1 : R
  x2 : R
  y2 : R

/-- `Rect::new`. -/
def Rect.new {R : Type} (x1 y1 x2 y2 : R) : Rect R := ⟨x1, y1, x2, y2⟩

/-- The root writer `PdfWriter { buf, offsets, depth, indent }`. -/
structure PdfWriter where
  buf : Buf
  offsets : List (Ref × Nat)
  depth : Nat
  indent : Nat

instance : DecidableEq PdfWriter := fun a b =>
  if h : a.buf = b.buf ∧ a.offsets = b.offsets ∧ a.depth = b.depth ∧ a.indent = b.indent then
    isTrue (by cases a; cases b; simp_all)
  else
    isFalse (fun e => h (by cases e; exact ⟨rfl, rfl, rfl, rfl⟩))

namespace PdfWriter

/-- `PdfWriter::new`. -/
def new : PdfWriter := ⟨[], [], 0, 0⟩

/-- `PdfWriter::set_indent`. -/
def set_indent (w : PdfWriter) (indent : Nat) : PdfWriter :=
  { w with indent := indent }

/-- The `write!` macro: append bytes to the buffer. -/
def write (w : PdfWriter) (s : Buf) : PdfWriter :=
  { w with buf := w.buf ++ s }

/-- `PdfWriter::write_indent`: push `indent * depth` spaces. -/
def write_indent (w : PdfWriter) : PdfWriter :=
  { w with buf := w.buf ++ List.replicate (w.indent * w.depth) ' ' }

/-- `PdfWriter::start`: `writeln!(self, "%PDF-{}.{}\n", major, minor)`. -/
def start (w : PdfWriter) (major minor : Nat) : PdfWriter :=
  write w (("%PDF-").toList ++ natStr major ++ ['.'] ++ natStr minor ++ ['\n', '\n'])

/-- `PdfWriter::start_indirect`; the `assert_eq!(self.depth, 0)` panic is the
`error` branch, carrying the (unchanged) state at the panic. -/
def start_indirect (w : PdfWriter) (id : Ref) : Except PdfWriter PdfWriter :=
  if w.depth = 0 then
    let w1 : PdfWriter := { w with depth := w.depth + 1 }
    let w2 : PdfWriter := { w1 with offsets := w1.offsets ++ [(id, w1.buf.length)] }
    Except.ok (write w2 (Ref.display id ++ (" obj\n").toList))
  else
    Except.error w

/-- `PdfWriter::end_indirect`. -/
def end_indirect (w : PdfWriter) : PdfWriter :=
  write { w with depth := w.depth - 1 } (("endobj\n\n").toList)

/-- `PdfWriter::obj` (the returned `Object` carries no state of its own). -/
def obj (w : PdfWriter) (id : Ref) : Except PdfWriter PdfWriter :=
  start_indirect w id

/-- `PdfWriter::into_buf`. -/
def into_buf (w : PdfWriter) : Buf := w.buf

end PdfWriter

/-- Collapse an `Except` panic model to the underlying writer state. -/
def resW : Except PdfWriter PdfWriter → PdfWriter
  | Except.ok w => w
  | Except.error w => w

/-- `Object::bool` (Rust `Display` for `bool` is `true`/`false`). -/
def Object.bool (w : PdfWriter) (value : Bool) : PdfWriter :=
  PdfWriter.write w (if value then ("true").toList else ("false").toList)

/-- `Object::int`. -/
def Object.int (w : PdfWriter) (value : Int) : PdfWriter :=
  PdfWriter.write w (intStr value)

/-- `Object::real`, with `fmtReal` standing for `f32`'s `Display`. -/
def Object.real {R : Type} (fmtReal : R → List Char) (w : PdfWriter) (value : R) : PdfWriter :=
  PdfWriter.write w (fmtReal value)

/-- `Object::name`: `write!(self.w, "/{}", name)`. -/
def Object.name (w : PdfWriter) (n : List Char) : PdfWriter :=
  PdfWriter.write w ('/' :: n)

/-- `Object::id`: `write!(self.w, "{} R", id)`. -/
def Object.id (w : PdfWriter) (id : Ref) : PdfWriter :=
  PdfWriter.write w (Ref.display id ++ (" R").toList)

/-- The transient state of an `Array` writer (`len`, `indirect`). -/
structure ArrayW where
  len : Int
  indirect : Bool

/-- `Array::start`. -/
def ArrayW.start (w : PdfWriter) (indirect : Bool) : PdfWriter × ArrayW :=
  (PdfWriter.write w ([ '[' ]), ⟨0, indirect⟩)

/-- `Array::item` (the returned value slot is written via the `Object.*`
operations on the writer component). -/
def ArrayW.item (w : PdfWriter) (a : ArrayW) : PdfWriter × ArrayW :=
  (PdfWriter.write w (if a.len ≠ 0 then [ ' ' ] else []), { a with len := a.len + 1 })

/-- `Array::len`. -/
def ArrayW.length (a : ArrayW) : Int := a.len

/-- `impl Drop for Array`. -/
def ArrayW.drop (w : PdfWriter) (a : ArrayW) : PdfWriter :=
  let w := PdfWriter.write w ([ ']' ])
  if a.indirect then PdfWriter.end_indirect w else w

/-- The transient state of a `Dict` writer (`len`, `indirect`). -/
structure DictW where
  len : Int
  indirect : Bool

/-- `Dict::start`. -/
def DictW.start (w : PdfWriter) (indirect : Bool) : PdfWriter × DictW :=
  let w := PdfWriter.write_indent w
  let w := PdfWriter.write w (("<<\n").toList)
  ({ w with depth := w.depth + 1 }, ⟨0, indirect⟩)

/-- `Dict::key`. -/
def DictW.key (w : PdfWriter) (d : DictW) (k : List Char) : PdfWriter × DictW :=
  let w := PdfWriter.write w (if d.len ≠ 0 then [ '\n' ] else [])
  let w := PdfWriter.write_indent w
  let w := PdfWriter.write w ('/' :: k ++ [ ' ' ])
  (w, { d with len := d.len + 1 })

/-- `impl Drop for Dict`. -/
def DictW.drop (w : PdfWriter) (d : DictW) : PdfWriter :=
  let w := PdfWriter.write w (if d.len ≠ 0 then [ '\n' ] else [])
  let w : PdfWriter := { w with depth := w.depth - 1 }
  let w := PdfWriter.write_indent w
  let w := PdfWriter.write w ((">>\n").toList)
  if d.indirect then PdfWriter.end_indirect w else w

/-- `Object::rect`: open an array, emit the four coordinates, drop the array. -/
def Object.rect {R : Type} (fmtReal : R → List Char) (w : PdfWriter) (indirect : Bool)
    (r : Rect R) : PdfWriter :=
  let wa := ArrayW.start w indirect
  let wa1 := ArrayW.item wa.1 wa.2
  let w1 := Object.real fmtReal wa1.1 r.x1
  let wa2 := ArrayW.item w1 wa1.2
  let w2 := Object.real fmtReal wa2.1 r.y1
  let wa3 := ArrayW.item w2 wa2.2
  let w3 := Object.real fmtReal wa3.1 r.x2
  let wa4 := ArrayW.item w3 wa3.2
  let w4 := Object.real fmtReal wa4.1 r.y2
  ArrayW.drop w4 wa4.2

namespace PdfWriter

/-- `offsets.sort()`: the comparison derived from `(Ref, usize)`'s `Ord`
(id first, then offset). -/
def sortLe (a b : Ref × Nat) : Bool :=
  a.1.val < b.1.val || (a.1.val == b.1.val && a.2 ≤ b.2)

/-- The fixed free entry `0000000000 65535 f\r\n`. -/
def freeLine : List Char := ("0000000000 65535 f\r\n").toList

/-- An in-use entry `{:010} 00000 n\r\n`. -/
def nEntry (offset : Nat) : List Char :=
  pad10 offset ++ (" 00000 n\r\n").toList

/-- The `while next < id` loop that emits free entries for skipped ids. -/
def freeLoop (next id : Int) : Buf :=
  if next < id then freeLine ++ freeLoop (next + 1) id else []
termination_by (id - next).toNat
decreasing_by
  have _h : next < id := by assumption
  omega

/-- The `for (id, offset) in &offsets` loop of `xref_table`, as the bytes it
appends; `next` is the running counter. -/
def xrefLines : List (Ref × Nat) → Int → Buf
  | [], _ => []
  | (id, off) :: rest, next =>
      freeLoop next id.val ++ nEntry off ++ xrefLines rest (id.val + 1)

/-- `PdfWriter::xref_table`: returns the new state, `xref_len`, `xref_offset`. -/
def xref_table (w : PdfWriter) : PdfWriter × Int × Nat :=
  let offsets := w.offsets.mergeSort sortLe
  let w : PdfWriter := { w with offsets := [] }
  let xref_len : Int := 1 + ((offsets.getLast?.map (fun p => p.1.val)).getD 0)
  let xref_offset := w.buf.length
  let w := write w (("xref\n0 ").toList ++ intStr xref_len ++ [ '\n' ])
  let w := write w freeLine
  let w := write w (xrefLines offsets 1)
  (w, xref_len, xref_offset)

/-- `PdfWriter::trailer`. -/
def trailer (w : PdfWriter) (root : Ref) (xref_len : Int) (xref_offset : Nat) : PdfWriter :=
  let w := write w (("trailer\n").toList)
  let wd := DictW.start w false
  let wd1 := DictW.key wd.1 wd.2 (("Size").toList)
  let w1 := Object.int wd1.1 xref_len
  let wd2 := DictW.key w1 wd1.2 (("Root").toList)
  let w2 := Object.id wd2.1 root
  let w3 := DictW.drop w2 wd2.2
  let w3 := write w3 (("startxref\n").toList)
  let w3 := write w3 (natStr xref_offset ++ [ '\n' ])
  write w3 (("%%EOF\n").toList)

/-- `PdfWriter::end`; the `assert_eq!(self.depth, 0)` panic is the `error`
branch, carrying the (unchanged) state at the panic. -/
def endDoc (w : PdfWriter) (root : Ref) : Except PdfWriter PdfWriter :=
  if w.depth = 0 then
    let t := xref_table w
    Except.ok (trailer t.1 root t.2.1 t.2.2)
  else
    Except.error w

end PdfWriter

/-- Run a sequence of `Array::item` calls; each item's content is an arbitrary
byte payload appended through the returned value slot. -/
def runItems : PdfWriter → ArrayW → List Buf → PdfWriter × ArrayW
  | w, a, [] => (w, a)
  | w, a, b :: rest =>
      let wa := ArrayW.item w a
      runItems (PdfWriter.write wa.1 b) wa.2 rest

/-- The expected layout of array items: payloads separated by single spaces. -/
def joinItems : List Buf → Buf
  | [] => []
  | b :: rest => b ++ (rest.map (fun c => ' ' :: c)).flatten

/-- A sample reference with value 1, used by concrete witnesses. -/
def refOne : Ref := ⟨1, by decide⟩

/-- A sample reference with value 3, used by concrete witnesses. -/
def refThree : Ref := ⟨3, by decide⟩

/-- A sample object sequence (ids 1 and 3), used by concrete witnesses. -/
def objsA : List (Ref × Buf) := [(refOne, [ '7' ]), (refThree, ([] : Buf))]

/-- A sample object sequence (id 3 only), used by concrete witnesses. -/
def objsB : List (Ref × Buf) := [(refThree, ([] : Buf))]

/-- The bytes of `buf` starting at `off` begin with `s`. -/
def matchesAt (buf : Buf) (off : Nat) (s : Buf) : Prop :=
  (buf.drop off).take s.length = s

/-- The serialized form of one indirect object whose content is `body`:
`<id> 0 obj`, the content, `endobj` and a blank line. -/
def objBytes (id : Ref) (body : Buf) : Buf :=
  Ref.display id ++ (" obj\n").toList ++ body ++ ("endobj\n\n").toList

/-- The bytes of a sequence of indirect objects. -/
def objsBytes (objs : List (Ref × Buf)) : Buf :=
  (objs.map (fun p => objBytes p.1 p.2)).flatten

/-- The offset-table entries recorded while serializing `objs` starting at
buffer position `base`. -/
def objOffsets : Nat → List (Ref × Buf) → List (Ref × Nat)
  | _, [] => []
  | base, (id, body) :: rest =>
      (id, base) :: objOffsets (base + (objBytes id body).length) rest

/-- One indirect object opened with `obj(id)`, filled with an arbitrary
appended payload `body`, and closed (`end_indirect`). -/
def writeObj (w : PdfWriter) (id : Ref) (body : Buf) : Except PdfWriter PdfWriter :=
  (PdfWriter.obj w id).map (fun w1 => PdfWriter.end_indirect (PdfWriter.write w1 body))

/-- A sequence of indirect objects, each opened and closed in isolation. -/
def writeObjs : PdfWriter → List (Ref × Buf) → Except PdfWriter PdfWriter
  | w, [] => Except.ok w
  | w, (id, body) :: rest => (writeObj w id body).bind (fun w1 => writeObjs w1 rest)

/-- The maximum of a list of identifiers (`0` when empty). -/
def maxIds (l : List Int) : Int := l.foldr max 0

/-- The final value of the `next` counter after the `xref_table` loop. -/
def endNext (L : List (Ref × Nat)) (next : Int) : Int :=
  match L.getLast? with
  | some p => p.1.val + 1
  | none => next

/-- The 20-byte cross-reference entry for identifier `j`: the in-use entry
with the recorded offset when `j` was used, the free sentinel otherwise. -/
def entryFor (offs : List (Ref × Nat)) (j : Int) : Buf :=
  match offs.find? (fun p => p.1.val == j) with
  | some p => PdfWriter.nEntry p.2
  | none => PdfWriter.freeLine

/-- The list of cross-reference entries for identifiers `0, 1, ..., len-1`,
in ascending identifier order. -/
def tableEntries (offs : List (Ref × Nat)) (len : Nat) : List Buf :=
  (List.range len).map (fun (j : Nat) => entryFor offs (j : Int))

/-- The table length `1 + max(id)` (`1` for an empty offset table) computed by
`xref_table` from the recorded offsets. -/
def xlen (offs : List (Ref × Nat)) : Int :=
  1 + (((offs.mergeSort PdfWriter.sortLe).getLast?.map (fun p => p.1.val)).getD 0)

/-- The bytes of the cross-reference table: the `xref` keyword, the subsection
header `0 <len>`, the id-0 sentinel, and the loop entries. -/
def tableBytes (offs : List (Ref × Nat)) : Buf :=
  ("xref\n0 ").toList ++ intStr (xlen offs) ++ [ '\n' ] ++ PdfWriter.freeLine ++
    PdfWriter.xrefLines (offs.mergeSort PdfWriter.sortLe) 1

/-- The bytes of the file trailer: the `trailer` keyword, a dictionary with
exactly the keys `Size` and `Root` in that order, `startxref`, the decimal
byte offset of the `xref` keyword, and `%%EOF`. -/
def trailerBytes (indent : Nat) (root : Ref) (size : Int) (sx : Nat) : Buf :=
  ("trailer\n<<\n").toList ++ List.replicate indent ' ' ++ ("/Size ").toList ++
    intStr size ++ [ '\n' ] ++ List.replicate indent ' ' ++ ("/Root ").toList ++
    Ref.display root ++ (" R\n>>\nstartxref\n").toList ++ natStr sx ++ ("\n%%EOF\n").toList

@[simp] theorem buf_write (w : PdfWriter) (s : Buf) :
    (PdfWriter.write w s).buf = w.buf ++ s := rfl

@[simp] theorem buf_write_indent (w : PdfWriter) :
    (PdfWriter.write_indent w).buf = w.buf ++ List.replicate (w.indent * w.depth) ' ' := rfl

theorem runItems_of_pos (bodies : List Buf) :
    ∀ (w : PdfWriter) (a : ArrayW), 0 < a.len →
      (runItems w a bodies).2.len = a.len + bodies.length ∧
      (runItems w a bodies).1.buf = w.buf ++ (bodies.map (fun c => ' ' :: c)).flatten := by
  induction bodies with
  | nil => intro w a _; simp [runItems]
  | cons b rest ih =>
      intro w a hpos
      have hne : a.len ≠ 0 := by omega
      have ih2 := ih (PdfWriter.write (ArrayW.item w a).1 b) (ArrayW.item w a).2 (by simp [ArrayW.item]; omega)
      refine ⟨?_, ?_⟩
      · simp only [runItems]
        rw [ih2.1]
        simp [ArrayW.item]
        omega
      · simp only [runItems]
        rw [ih2.2]
        simp [ArrayW.item, hne, List.append_assoc]

/-! ### Decimal rendering: correctness of `natStr`/`pad10` w.r.t. decoding -/

theorem natStrGo_zero (fuel : Nat) (acc : List Char) : natStrGo fuel 0 acc = acc := by
  cases fuel <;> simp [natStrGo]

theorem natStrGo_eq_append :
    ∀ (fuel n : Nat) (acc : List Char),
      natStrGo fuel n acc = natStrGo fuel n [] ++ acc := by
  intro fuel
  induction fuel with
  | zero => intro n acc; simp [natStrGo]
  | succ f ih =>
      intro n acc
      by_cases h : n = 0
      · subst h; simp [natStrGo]
      · simp only [natStrGo, if_neg h]
        rw [ih (n / 10) ((n % 10).digitChar :: acc), ih (n / 10) [(n % 10).digitChar]]
        simp

theorem digitChar_val (d : Nat) (h : d < 10) : (Nat.digitChar d).toNat - 48 = d := by
  interval_cases d <;> decide

theorem decodeFrom_append (a : Nat) (l1 l2 : List Char) :
    decodeFrom a (l1 ++ l2) = decodeFrom (decodeFrom a l1) l2 := by
  simp [decodeFrom, List.foldl_append]

theorem decodeFrom_natStrGo :
    ∀ n : Nat, 0 < n → ∀ fuel : Nat, n ≤ fuel → ∀ a : Nat,
      decodeFrom a (natStrGo fuel n []) =
        a * 10 ^ (natStrGo fuel n []).length + n := by
  intro n
  induction n using Nat.strong_induction_on with
  | _ n ih =>
      intro hn fuel hfuel a
      obtain ⟨f, rfl⟩ : ∃ f, fuel = f + 1 := ⟨fuel - 1, by omega⟩
      have hne : n ≠ 0 := by omega
      have hmod : (Nat.digitChar (n % 10)).toNat - 48 = n % 10 :=
        digitChar_val (n % 10) (Nat.mod_lt n (by omega))
      by_cases hq : n / 10 = 0
      · have hlt : n < 10 := by omega
        simp only [natStrGo, if_neg hne]
        rw [natStrGo_eq_append, hq, natStrGo_zero]
        simp [decodeFrom, hmod]
        omega
      · have hlen : (natStrGo (f + 1) n []).length =
            (natStrGo f (n / 10) []).length + 1 := by
          simp only [natStrGo, if_neg hne]
          rw [natStrGo_eq_append]
          simp
        rw [hlen]
        simp only [natStrGo, if_neg hne]
        rw [natStrGo_eq_append, decodeFrom_append,
          ih (n / 10) (Nat.div_lt_self hn (by omega)) (Nat.pos_of_ne_zero hq) f
            (by omega) a]
        simp [decodeFrom, hmod]
        generalize (natStrGo f (n / 10) []).length = L
        rw [pow_succ]
        have h1 : a * (10 ^ L * 10) = a * 10 ^ L * 10 := by ring
        rw [h1]
        generalize a * 10 ^ L = B
        omega

theorem decode_natStr (n : Nat) : decodeDigits (natStr n) = n := by
  by_cases h : n = 0
  · subst h; decide
  · unfold decodeDigits natStr
    rw [if_neg h, decodeFrom_natStrGo n (Nat.pos_of_ne_zero h) n le_rfl 0]
    simp

theorem decodeFrom_zeros (k : Nat) : decodeFrom 0 (List.replicate k '0') = 0 := by
  induction k with
  | zero => decide
  | succ k ih =>
      have : List.replicate (k + 1) '0' = '0' :: List.replicate k '0' := rfl
      rw [this]
      simpa [decodeFrom] using ih

/-- Decoding a zero-padded decimal rendering recovers the number. -/
theorem decode_pad10 (n : Nat) : decodeDigits (pad10 n) = n := by
  unfold pad10 decodeDigits
  rw [decodeFrom_append]
  have h0 : decodeFrom 0 (List.replicate (10 - (natStr n).length) '0') = 0 :=
    decodeFrom_zeros _
  rw [h0]
  exact decode_natStr n

theorem natStrGo_length_le (k : Nat) :
    ∀ n fuel : Nat, n < 10 ^ k → (natStrGo fuel n []).length ≤ k := by
  induction k with
  | zero =>
      intro n fuel h
      have : n = 0 := by simpa using h
      subst this
      simp [natStrGo_zero]
  | succ k ih =>
      intro n fuel h
      cases fuel with
      | zero => simp [natStrGo]
      | succ f =>
          by_cases hz : n = 0
          · subst hz; simp [natStrGo]
          · simp only [natStrGo, if_neg hz]
            rw [natStrGo_eq_append]
            have hdiv : n / 10 < 10 ^ k := by
              rw [Nat.div_lt_iff_lt_mul (by decide)]
              calc n < 10 ^ (k + 1) := h
                _ = 10 ^ k * 10 := by ring
            have := ih (n / 10) f hdiv
            simp only [List.length_append, List.length_cons, List.length_nil]
            omega

theorem natStr_length_le (n : Nat) (h : n < 10 ^ 10) : (natStr n).length ≤ 10 := by
  by_cases hz : n = 0
  · subst hz; decide
  · unfold natStr
    rw [if_neg hz]
    exact natStrGo_length_le 10 n n h

/-- Offsets below `10^10` render as exactly 10 digits. -/
theorem pad10_length (n : Nat) (h : n < 10 ^ 10) : (pad10 n).length = 10 := by
  have := natStr_length_le n h
  simp [pad10]
  omega

theorem matchesAt_layout (pre s rest : Buf) :
    matchesAt (pre ++ (s ++ rest)) pre.length s := by
  unfold matchesAt
  rw [List.drop_left, List.take_left]

/-! ### Characterization of a sequence of isolated indirect objects -/

theorem objOffsets_map_fst (objs : List (Ref × Buf)) :
    ∀ base : Nat, (objOffsets base objs).map (fun p => p.1.val) =
      objs.map (fun p => p.1.val) := by
  induction objs with
  | nil => intro base; simp [objOffsets]
  | cons p rest ih =>
      intro base
      obtain ⟨id, body⟩ := p
      simp [objOffsets, ih]

theorem objBytes_length_pos (id : Ref) (body : Buf) : 0 < (objBytes id body).length := by
  simp [objBytes]

theorem objOffsets_lt (objs : List (Ref × Buf)) :
    ∀ (base : Nat) (p : Ref × Nat), p ∈ objOffsets base objs →
      p.2 < base + (objsBytes objs).length := by
  induction objs with
  | nil => intro base p hp; simp [objOffsets] at hp
  | cons q rest ih =>
      intro base p hp
      obtain ⟨id, body⟩ := q
      simp only [objOffsets, List.mem_cons] at hp
      have hlen : (objsBytes ((id, body) :: rest)).length =
          (objBytes id body).length + (objsBytes rest).length := by
        simp [objsBytes]
      rcases hp with h | h
      · subst h
        have := objBytes_length_pos id body
        omega
      · have := ih (base + (objBytes id body).length) p h
        omega

theorem writeObjs_ok (objs : List (Ref × Buf)) :
    ∀ w : PdfWriter, w.depth = 0 →
      writeObjs w objs = Except.ok
        ⟨w.buf ++ objsBytes objs, w.offsets ++ objOffsets w.buf.length objs,
          0, w.indent⟩ := by
  induction objs with
  | nil =>
      intro w hd
      cases w
      simp_all [writeObjs, objsBytes, objOffsets]
  | cons q rest ih =>
      intro w hd
      obtain ⟨id, body⟩ := q
      simp only [writeObjs, writeObj, PdfWriter.obj, PdfWriter.start_indirect, hd, if_pos,
        Except.map, Except.bind]
      rw [ih _ rfl]
      simp [PdfWriter.write, PdfWriter.end_indirect, objBytes, objsBytes, objOffsets,
        List.append_assoc, List.length_append]

theorem objOffsets_matches (objs : List (Ref × Buf)) :
    ∀ (pre tail : Buf) (p : Ref × Nat), p ∈ objOffsets pre.length objs →
      matchesAt (pre ++ (objsBytes objs ++ tail)) p.2
        (Ref.display p.1 ++ (" obj").toList) := by
  induction objs with
  | nil => intro pre tail p hp; simp [objOffsets] at hp
  | cons q rest ih =>
      intro pre tail p hp
      obtain ⟨id, body⟩ := q
      simp only [objOffsets, List.mem_cons] at hp
      rcases hp with h | h
      · subst h
        have hsplit : objsBytes ((id, body) :: rest) ++ tail =
            (Ref.display id ++ (" obj").toList) ++
              (([ '\n' ] ++ body ++ ("endobj\n\n").toList) ++ (objsBytes rest ++ tail)) := by
          have hob : (" obj\n").toList = (" obj").toList ++ [ '\n' ] := by decide
          simp [objsBytes, objBytes, hob, List.append_assoc]
        rw [hsplit]
        exact matchesAt_layout pre _ _
      · have hmem : p ∈ objOffsets (pre ++ objBytes id body).length rest := by
          simpa [List.length_append] using h
        have := ih (pre ++ objBytes id body) tail p hmem
        have hassoc : (pre ++ objBytes id body) ++ (objsBytes rest ++ tail) =
            pre ++ (objsBytes ((id, body) :: rest) ++ tail) := by
          simp [objsBytes, List.append_assoc]
        rwa [hassoc] at this

/-! ### Sorting the offset table -/

theorem sortLe_trans (a b c : Ref × Nat) :
    PdfWriter.sortLe a b = true → PdfWriter.sortLe b c = true →
      PdfWriter.sortLe a c = true := by
  simp only [PdfWriter.sortLe, Bool.or_eq_true, Bool.and_eq_true, beq_iff_eq,
    decide_eq_true_eq]
  omega

theorem sortLe_total (a b : Ref × Nat) :
    (PdfWriter.sortLe a b || PdfWriter.sortLe b a) = true := by
  simp only [PdfWriter.sortLe, Bool.or_eq_true, Bool.and_eq_true, beq_iff_eq,
    decide_eq_true_eq]
  omega

theorem sortLe_val_le {a b : Ref × Nat} (h : PdfWriter.sortLe a b = true) :
    a.1.val ≤ b.1.val := by
  simp only [PdfWriter.sortLe, Bool.or_eq_true, Bool.and_eq_true, beq_iff_eq,
    decide_eq_true_eq] at h
  omega

theorem pairwise_getLast {α : Type} {R : α → α → Prop} :
    ∀ (l : List α) (h : l ≠ []), l.Pairwise R →
      ∀ x ∈ l, x = l.getLast h ∨ R x (l.getLast h) := by
  intro l
  induction l with
  | nil => intro h; exact absurd rfl h
  | cons a t ih =>
      intro h hpw x hx
      cases t with
      | nil =>
          simp at hx
          subst hx
          left
          simp [List.getLast]
      | cons b t2 =>
          have hne : b :: t2 ≠ [] := by simp
          rw [List.getLast_cons hne]
          rcases List.mem_cons.mp hx with h1 | h1
          · subst h1
            right
            exact (List.pairwise_cons.mp hpw).1 _ (List.getLast_mem hne)
          · exact ih hne (List.pairwise_cons.mp hpw).2 x h1

theorem maxIds_cons (x : Int) (t : List Int) : maxIds (x :: t) = max x (maxIds t) := rfl

theorem le_maxIds (l : List Int) : ∀ x ∈ l, x ≤ maxIds l := by
  induction l with
  | nil => simp
  | cons y t ih =>
      intro x hx
      rw [maxIds_cons]
      rcases List.mem_cons.mp hx with h | h
      · subst h; exact le_max_left _ _
      · exact le_trans (ih x h) (le_max_right _ _)

theorem maxIds_mem (l : List Int) (hne : l ≠ []) (hpos : ∀ x ∈ l, 1 ≤ x) :
    maxIds l ∈ l := by
  induction l with
  | nil => exact absurd rfl hne
  | cons y t ih =>
      rw [maxIds_cons]
      cases t with
      | nil =>
          have hy : 1 ≤ y := hpos y (by simp)
          have h0 : maxIds ([] : List Int) = 0 := rfl
          have : max y (maxIds []) = y := by rw [h0]; omega
          rw [this]
          simp
      | cons z t2 =>
          have hmem := ih (by simp) (fun x hx => hpos x (List.mem_cons_of_mem y hx))
          rcases le_total (maxIds (z :: t2)) y with h | h
          · rw [max_eq_left h]; simp
          · rw [max_eq_right h]
            exact List.mem_cons_of_mem y hmem

/-- The last element of the sorted offset table carries the maximum id. -/
theorem mergeSort_getLast_val (offs : List (Ref × Nat)) (hne : offs ≠ []) :
    (((offs.mergeSort PdfWriter.sortLe).getLast?.map (fun p => p.1.val)).getD 0) =
      maxIds (offs.map (fun p => p.1.val)) := by
  have hperm := List.mergeSort_perm offs PdfWriter.sortLe
  have hsne : offs.mergeSort PdfWriter.sortLe ≠ [] := by
    intro h
    rw [h] at hperm
    exact hne hperm.nil_eq.symm
  rw [List.getLast?_eq_getLast _ hsne]
  show ((offs.mergeSort PdfWriter.sortLe).getLast hsne).1.val =
    maxIds (offs.map (fun p => p.1.val))
  have hspw := List.sorted_mergeSort sortLe_trans sortLe_total offs
  have hlast_mem : (offs.mergeSort PdfWriter.sortLe).getLast hsne ∈ offs :=
    List.mem_mergeSort.mp (List.getLast_mem hsne)
  have hub : ((offs.mergeSort PdfWriter.sortLe).getLast hsne).1.val ≤
      maxIds (offs.map (fun p => p.1.val)) :=
    le_maxIds _ _ (List.mem_map_of_mem _ hlast_mem)
  have hmapne : offs.map (fun p => p.1.val) ≠ [] := by
    simpa using hne
  have hmappos : ∀ x ∈ offs.map (fun p => p.1.val), 1 ≤ x := by
    intro x hx
    obtain ⟨p, _, rfl⟩ := List.mem_map.mp hx
    exact p.1.pos
  obtain ⟨q, hq, hqval⟩ := List.mem_map.mp (maxIds_mem _ hmapne hmappos)
  have hq2 : q ∈ offs.mergeSort PdfWriter.sortLe := List.mem_mergeSort.mpr hq
  have hlb : maxIds (offs.map (fun p => p.1.val)) ≤
      ((offs.mergeSort PdfWriter.sortLe).getLast hsne).1.val := by
    rcases pairwise_getLast _ hsne hspw q hq2 with h | h
    · rw [← hqval, h]
    · rw [← hqval]
      exact sortLe_val_le h
  omega

/-! ### The xref entry loop -/

theorem freeLoop_eq_aux :
    ∀ (n : Nat) (next id : Int), (id - next).toNat = n →
      PdfWriter.freeLoop next id = (List.replicate n PdfWriter.freeLine).flatten := by
  intro n
  induction n with
  | zero =>
      intro next id h
      rw [PdfWriter.freeLoop, if_neg (by omega)]
      simp
  | succ k ih =>
      intro next id h
      rw [PdfWriter.freeLoop, if_pos (by omega)]
      rw [ih (next + 1) id (by omega)]
      simp [List.replicate_succ]

theorem freeLoop_eq (next id : Int) :
    PdfWriter.freeLoop next id =
      (List.replicate (id - next).toNat PdfWriter.freeLine).flatten :=
  freeLoop_eq_aux _ next id rfl

theorem endNext_cons (q : Ref × Nat) (rest : List (Ref × Nat)) (next : Int) :
    endNext (q :: rest) next = endNext rest (q.1.val + 1) := by
  cases rest with
  | nil => simp [endNext]
  | cons r t =>
      have hne : r :: t ≠ [] := by simp
      unfold endNext
      rw [List.getLast?_cons_cons, List.getLast?_eq_getLast _ hne]

theorem endNext_ge (rest : List (Ref × Nat)) (next : Int)
    (hlb : ∀ p ∈ rest, next ≤ p.1.val) : next ≤ endNext rest next := by
  cases rest with
  | nil => simp [endNext]
  | cons r t =>
      have hne : r :: t ≠ [] := by simp
      have hv := hlb _ (List.getLast_mem hne)
      unfold endNext
      rw [List.getLast?_eq_getLast _ hne]
      exact (show next ≤ ((r :: t).getLast hne).1.val + 1 by omega)

theorem entryFor_cons_of_ne (q : Ref × Nat) (rest : List (Ref × Nat)) (j : Int)
    (h : q.1.val ≠ j) : entryFor (q :: rest) j = entryFor rest j := by
  unfold entryFor
  rw [List.find?_cons_of_neg]
  simpa using h

theorem entryFor_cons_self (q : Ref × Nat) (rest : List (Ref × Nat)) :
    entryFor (q :: rest) q.1.val = PdfWriter.nEntry q.2 := by
  unfold entryFor
  rw [List.find?_cons_of_pos]
  simp

theorem entryFor_of_not_mem (offs : List (Ref × Nat)) (j : Int)
    (h : ∀ p ∈ offs, p.1.val ≠ j) : entryFor offs j = PdfWriter.freeLine := by
  unfold entryFor
  rw [List.find?_eq_none.mpr]
  intro p hp
  simpa using h p hp

/-- The `for` loop of `xref_table`, on a strictly id-sorted offset list all of
whose ids are at least `next`, emits exactly one entry per identifier from
`next` up to the largest id, in ascending order. -/
theorem xrefLines_join (L : List (Ref × Nat)) :
    ∀ next : Int,
      (∀ p ∈ L, next ≤ p.1.val) →
      L.Pairwise (fun p q => p.1.val < q.1.val) →
      PdfWriter.xrefLines L next =
        ((List.range (endNext L next - next).toNat).map
          (fun (k : Nat) => entryFor L (next + (k : Int)))).flatten := by
  induction L with
  | nil =>
      intro next _ _
      simp [PdfWriter.xrefLines, endNext]
  | cons q rest ih =>
      intro next hlb hpw
      obtain ⟨id, off⟩ := q
      have hpairs := List.pairwise_cons.mp hpw
      have hnext_id : next ≤ id.val := hlb _ (List.mem_cons_self _ _)
      have hrest_lb : ∀ p ∈ rest, id.val + 1 ≤ p.1.val := by
        intro p hp
        have h1 : id.val < p.1.val := hpairs.1 p hp
        omega
      have hE : id.val + 1 ≤ endNext rest (id.val + 1) := endNext_ge rest _ hrest_lb
      have hEeq : endNext ((id, off) :: rest) next = endNext rest (id.val + 1) :=
        endNext_cons _ _ _
      set g : Nat := (id.val - next).toNat with hg
      set m : Nat := (endNext rest (id.val + 1) - (id.val + 1)).toNat with hm
      have hcount : (endNext ((id, off) :: rest) next - next).toNat = g + 1 + m := by
        rw [hEeq]
        omega
      rw [hcount]
      -- split the range
      rw [List.range_add, List.range_succ, List.map_append, List.map_append,
        List.flatten_append, List.flatten_append]
      -- the first `g` entries are free entries, matching `freeLoop`
      have hfree : (List.range g).map
          (fun (k : Nat) => entryFor ((id, off) :: rest) (next + (k : Int))) =
          List.replicate g PdfWriter.freeLine := by
        rw [List.eq_replicate_iff]
        refine ⟨by simp, ?_⟩
        intro b hb
        obtain ⟨k, hk, rfl⟩ := List.mem_map.mp hb
        have hklt : k < g := List.mem_range.mp hk
        have hjlt : next + (k : Int) < id.val := by omega
        have h1 : entryFor ((id, off) :: rest) (next + (k : Int)) =
            entryFor rest (next + (k : Int)) := by
          apply entryFor_cons_of_ne
          show id.val ≠ next + (k : Int)
          omega
        rw [h1]
        apply entryFor_of_not_mem
        intro p hp
        have h2 : id.val + 1 ≤ p.1.val := hrest_lb p hp
        omega
      -- the `g`-th entry is the in-use entry for `id`
      have hself : (List.map (fun (k : Nat) => entryFor ((id, off) :: rest) (next + (k : Int)))
          [g]).flatten = PdfWriter.nEntry off := by
        have hjeq : next + (g : Int) = id.val := by omega
        simp only [List.map_cons, List.map_nil, List.flatten_cons, List.flatten_nil,
          List.append_nil]
        rw [hjeq]
        exact entryFor_cons_self (id, off) rest
      -- the remaining entries agree with the loop on `rest`
      have htail : ((List.map (fun x => g + 1 + x) (List.range m)).map
          (fun (k : Nat) => entryFor ((id, off) :: rest) (next + (k : Int)))).flatten =
          PdfWriter.xrefLines rest (id.val + 1) := by
        rw [ih (id.val + 1) hrest_lb hpairs.2]
        rw [← hm, List.map_map]
        congr 1
        apply List.map_congr_left
        intro k hk
        simp only [Function.comp]
        have h1 : entryFor ((id, off) :: rest) (next + ((g + 1 + k : Nat) : Int)) =
            entryFor rest (next + ((g + 1 + k : Nat) : Int)) := by
          apply entryFor_cons_of_ne
          show id.val ≠ next + ((g + 1 + k : Nat) : Int)
          push_cast
          omega
        rw [h1]
        congr 1
        push_cast
        omega
      rw [hfree, hself, htail]
      rw [PdfWriter.xrefLines, freeLoop_eq]

/-! ### Characterization of `end` (xref table + trailer) -/

/-- `PdfWriter::end` at depth 0 appends exactly the cross-reference table
followed by the trailer, and clears the offset table. -/
theorem endDoc_eq (w : PdfWriter) (root : Ref) (h : w.depth = 0) :
    PdfWriter.endDoc w root = Except.ok
      ⟨w.buf ++ tableBytes w.offsets ++
          trailerBytes w.indent root (xlen w.offsets) w.buf.length,
        [], 0, w.indent⟩ := by
  simp [PdfWriter.endDoc, PdfWriter.xref_table, PdfWriter.trailer, DictW.start, DictW.key,
    DictW.drop, Object.int, Object.id, PdfWriter.write, PdfWriter.write_indent,
    tableBytes, trailerBytes, xlen, h, List.append_assoc]

theorem find?_unique (offs : List (Ref × Nat))
    (hdist : (offs.map (fun p => p.1.val)).Pairwise (fun a b => a ≠ b)) :
    ∀ p ∈ offs, offs.find? (fun q => q.1.val == p.1.val) = some p := by
  induction offs with
  | nil => intro p hp; simp at hp
  | cons q rest ih =>
      intro p hp
      rw [List.map_cons] at hdist
      have hd := List.pairwise_cons.mp hdist
      rcases List.mem_cons.mp hp with h | h
      · subst h
        rw [List.find?_cons_of_pos]
        simp
      · have hne : q.1.val ≠ p.1.val := hd.1 p.1.val (List.mem_map_of_mem _ h)
        rw [List.find?_cons_of_neg]
        · exact ih hd.2 p h
        · simpa using hne

theorem pairwise_ne_mergeSort (offs : List (Ref × Nat))
    (hdist : (offs.map (fun p => p.1.val)).Pairwise (fun a b => a ≠ b)) :
    ((offs.mergeSort PdfWriter.sortLe).map (fun p => p.1.val)).Pairwise
      (fun a b => a ≠ b) := by
  have hpm : List.Perm ((offs.mergeSort PdfWriter.sortLe).map (fun p => p.1.val))
      (offs.map (fun p => p.1.val)) :=
    (List.mergeSort_perm offs PdfWriter.sortLe).map _
  exact (hpm.pairwise_iff (fun hxy => hxy.symm)).mpr hdist

/-- With distinct ids, looking an id up in the sorted offset table gives the
same entry as in the unsorted one. -/
theorem entryFor_mergeSort (offs : List (Ref × Nat))
    (hdist : (offs.map (fun p => p.1.val)).Pairwise (fun a b => a ≠ b)) (j : Int) :
    entryFor (offs.mergeSort PdfWriter.sortLe) j = entryFor offs j := by
  by_cases hex : ∃ p ∈ offs, p.1.val = j
  · obtain ⟨p, hp, rfl⟩ := hex
    have h1 : entryFor offs p.1.val = PdfWriter.nEntry p.2 := by
      unfold entryFor
      rw [find?_unique offs hdist p hp]
    have h2 : entryFor (offs.mergeSort PdfWriter.sortLe) p.1.val = PdfWriter.nEntry p.2 := by
      unfold entryFor
      rw [find?_unique _ (pairwise_ne_mergeSort offs hdist) p (List.mem_mergeSort.mpr hp)]
    rw [h1, h2]
  · push_neg at hex
    rw [entryFor_of_not_mem _ _ hex, entryFor_of_not_mem]
    intro p hp
    exact hex p (List.mem_mergeSort.mp hp)

/-- Strict ordering of ids in the sorted offset table, given distinct ids. -/
theorem pairwise_lt_mergeSort (offs : List (Ref × Nat))
    (hdist : (offs.map (fun p => p.1.val)).Pairwise (fun a b => a ≠ b)) :
    (offs.mergeSort PdfWriter.sortLe).Pairwise (fun p q => p.1.val < q.1.val) := by
  have h1 := List.sorted_mergeSort sortLe_trans sortLe_total offs
  have h2 : (offs.mergeSort PdfWriter.sortLe).Pairwise
      (fun p q => p.1.val ≠ q.1.val) :=
    List.pairwise_map.mp (pairwise_ne_mergeSort offs hdist)
  refine (h1.and h2).imp ?_
  intro a b hab
  have := sortLe_val_le hab.1
  have := hab.2
  omega

/-- The sentinel plus the loop output is exactly the flattened per-identifier
entry list of length `1 + max(id)`, and `xlen` is `1 + max(id)`. -/
theorem table_flatten (offs : List (Ref × Nat)) (hne : offs ≠ [])
    (hdist : (offs.map (fun p => p.1.val)).Pairwise (fun a b => a ≠ b)) :
    PdfWriter.freeLine ++ PdfWriter.xrefLines (offs.mergeSort PdfWriter.sortLe) 1 =
      (tableEntries offs (xlen offs).toNat).flatten ∧
    xlen offs = 1 + maxIds (offs.map (fun p => p.1.val)) := by
  have hxlen : xlen offs = 1 + maxIds (offs.map (fun p => p.1.val)) := by
    unfold xlen
    rw [mergeSort_getLast_val offs hne]
  refine ⟨?_, hxlen⟩
  set M : Int := maxIds (offs.map (fun p => p.1.val)) with hM
  -- the maximum id is at least 1
  obtain ⟨p0, hp0⟩ := List.exists_mem_of_ne_nil offs hne
  have hM1 : 1 ≤ M := le_trans p0.1.pos (le_maxIds _ _ (List.mem_map_of_mem _ hp0))
  -- the loop output in per-identifier form
  have hlb : ∀ p ∈ offs.mergeSort PdfWriter.sortLe, (1 : Int) ≤ p.1.val :=
    fun p _ => p.1.pos
  have hjoin := xrefLines_join (offs.mergeSort PdfWriter.sortLe) 1 hlb
    (pairwise_lt_mergeSort offs hdist)
  -- the final loop counter is M + 1
  have hsne : offs.mergeSort PdfWriter.sortLe ≠ [] := by
    intro h
    have := List.mergeSort_perm offs PdfWriter.sortLe
    rw [h] at this
    exact hne this.nil_eq.symm
  have hendN : endNext (offs.mergeSort PdfWriter.sortLe) 1 = M + 1 := by
    unfold endNext
    rw [List.getLast?_eq_getLast _ hsne]
    have := mergeSort_getLast_val offs hne
    rw [List.getLast?_eq_getLast _ hsne] at this
    simp only [Option.map, Option.getD] at this
    rw [hM, ← this]
  rw [hendN] at hjoin
  have hcnt : (M + 1 - 1).toNat = M.toNat := by omega
  rw [hcnt] at hjoin
  have hlen_toNat : (xlen offs).toNat = M.toNat + 1 := by
    rw [hxlen]
    omega
  rw [hlen_toNat]
  unfold tableEntries
  rw [List.range_succ_eq_map, List.map_cons, List.map_map, List.flatten_cons]
  have hzero : entryFor offs ((0 : Nat) : Int) = PdfWriter.freeLine := by
    apply entryFor_of_not_mem
    intro p hp
    have := p.1.pos
    omega
  rw [hzero]
  congr 1
  rw [hjoin]
  congr 1
  apply List.map_congr_left
  intro k hk
  simp only [Function.comp]
  rw [entryFor_mergeSort offs hdist]
  congr 1
  push_cast
  omega

theorem entryFor_zero (offs : List (Ref × Nat)) :
    entryFor offs 0 = PdfWriter.freeLine :=
  entryFor_of_not_mem _ _ (fun p _ => by have := p.1.pos; omega)

theorem maxIds_ge_one (objs : List (Ref × Buf)) (hne : objs ≠ []) :
    1 ≤ maxIds (objs.map (fun p => p.1.val)) := by
  obtain ⟨p0, hp0⟩ := List.exists_mem_of_ne_nil objs hne
  exact le_trans p0.1.pos (le_maxIds _ _ (List.mem_map_of_mem _ hp0))

/-- The cross-reference table bytes, as the flattened ascending per-identifier
entry list, for an offset table with distinct ids. -/
theorem tableBytes_eq (offs : List (Ref × Nat)) (hne : offs ≠ [])
    (hdist : (offs.map (fun p => p.1.val)).Pairwise (fun a b => a ≠ b)) :
    tableBytes offs = ("xref\n0 ").toList ++
      intStr (1 + maxIds (offs.map (fun p => p.1.val))) ++ [ '\n' ] ++
      (tableEntries offs (1 + maxIds (offs.map (fun p => p.1.val))).toNat).flatten := by
  have hTF := table_flatten offs hne hdist
  calc tableBytes offs
      = ("xref\n0 ").toList ++ intStr (xlen offs) ++ [ '\n' ] ++
          (PdfWriter.freeLine ++
            PdfWriter.xrefLines (offs.mergeSort PdfWriter.sortLe) 1) := by
        simp [tableBytes, List.append_assoc]
    _ = ("xref\n0 ").toList ++ intStr (xlen offs) ++ [ '\n' ] ++
          (tableEntries offs (xlen offs).toNat).flatten := by rw [hTF.1]
    _ = _ := by rw [hTF.2]

/-- Master characterization of the full pipeline "write a nonempty sequence of
distinct isolated indirect objects, then `end(root)`": document layout, entry
count, sentinel, and the per-identifier entries.  The two cross-reference
claims below are projections of this lemma. -/
theorem pipeline_spec (w0 : PdfWriter) (objs : List (Ref × Buf)) (root : Ref)
    (hd : w0.depth = 0) (ho : w0.offsets = []) (hne : objs ≠ [])
    (hdist : (objs.map (fun p => p.1.val)).Pairwise (fun a b => a ≠ b))
    (hsz : w0.buf.length + (objsBytes objs).length < 10 ^ 10) :
    ∃ w' : PdfWriter,
      (writeObjs w0 objs).bind (fun w1 => PdfWriter.endDoc w1 root) = Except.ok w' ∧
      w'.buf = w0.buf ++ objsBytes objs ++ ("xref\n0 ").toList ++
        intStr (1 + maxIds (objs.map (fun p => p.1.val))) ++ [ '\n' ] ++
        (tableEntries (objOffsets w0.buf.length objs)
          (1 + maxIds (objs.map (fun p => p.1.val))).toNat).flatten ++
        trailerBytes w0.indent root (1 + maxIds (objs.map (fun p => p.1.val)))
          (w0.buf.length + (objsBytes objs).length) ∧
      (tableEntries (objOffsets w0.buf.length objs)
        (1 + maxIds (objs.map (fun p => p.1.val))).toNat).length =
        (1 + maxIds (objs.map (fun p => p.1.val))).toNat ∧
      (tableEntries (objOffsets w0.buf.length objs)
        (1 + maxIds (objs.map (fun p => p.1.val))).toNat).head? =
        some PdfWriter.freeLine ∧
      ∀ p ∈ objOffsets w0.buf.length objs,
        entryFor (objOffsets w0.buf.length objs) p.1.val = PdfWriter.nEntry p.2 ∧
        (pad10 p.2).length = 10 ∧ decodeDigits (pad10 p.2) = p.2 ∧
        matchesAt w'.buf p.2 (Ref.display p.1 ++ (" obj").toList) := by
  have hW := writeObjs_ok objs w0 hd
  have hids := objOffsets_map_fst objs w0.buf.length
  have hdist' : ((objOffsets w0.buf.length objs).map (fun p => p.1.val)).Pairwise
      (fun a b => a ≠ b) := by rw [hids]; exact hdist
  have hne' : objOffsets w0.buf.length objs ≠ [] := by
    cases objs with
    | nil => exact absurd rfl hne
    | cons q rest =>
        obtain ⟨id, body⟩ := q
        simp [objOffsets]
  have hM : maxIds ((objOffsets w0.buf.length objs).map (fun p => p.1.val)) =
      maxIds (objs.map (fun p => p.1.val)) := by rw [hids]
  have hTB := tableBytes_eq (objOffsets w0.buf.length objs) hne' hdist'
  rw [hM] at hTB
  have hxl : xlen (objOffsets w0.buf.length objs) =
      1 + maxIds (objs.map (fun p => p.1.val)) := by
    rw [(table_flatten _ hne' hdist').2, hM]
  have hM1 : 1 ≤ maxIds (objs.map (fun p => p.1.val)) := maxIds_ge_one objs hne
  -- run the pipeline
  have hpipe : (writeObjs w0 objs).bind (fun w1 => PdfWriter.endDoc w1 root) =
      PdfWriter.endDoc
        ⟨w0.buf ++ objsBytes objs, w0.offsets ++ objOffsets w0.buf.length objs,
          0, w0.indent⟩ root := by
    rw [hW]
    rfl
  have hend := endDoc_eq
    ⟨w0.buf ++ objsBytes objs, w0.offsets ++ objOffsets w0.buf.length objs,
      0, w0.indent⟩ root rfl
  rw [hend] at hpipe
  simp only [ho, List.nil_append, List.length_append] at hpipe
  refine ⟨_, hpipe, ?_, ?_, ?_, ?_⟩
  · -- buffer layout
    simp only [hTB, hxl]
    simp [List.append_assoc]
  · simp [tableEntries]
  · -- entry 0 is the sentinel
    have hn : (1 + maxIds (objs.map (fun p => p.1.val))).toNat =
        (maxIds (objs.map (fun p => p.1.val))).toNat + 1 := by omega
    rw [hn]
    unfold tableEntries
    rw [List.range_succ_eq_map]
    simp [entryFor_zero]
  · intro p hp
    refine ⟨?_, ?_, decode_pad10 p.2, ?_⟩
    · unfold entryFor
      rw [find?_unique _ hdist' p hp]
    · have := objOffsets_lt objs w0.buf.length p hp
      exact pad10_length p.2 (by omega)
    · have hsplit : (w0.buf ++ objsBytes objs ++
          tableBytes (objOffsets w0.buf.length objs) ++
          trailerBytes w0.indent root (xlen (objOffsets w0.buf.length objs))
            (w0.buf.length + (objsBytes objs).length)) =
          w0.buf ++ (objsBytes objs ++
            (tableBytes (objOffsets w0.buf.length objs) ++
              trailerBytes w0.indent root (xlen (objOffsets w0.buf.length objs))
                (w0.buf.length + (objsBytes objs).length))) := by
        simp [List.append_assoc]
      show matchesAt _ p.2 _
      rw [hsplit]
      exact objOffsets_matches objs w0.buf _ p hp

/-- C1: for any nonempty sequence of distinct identifiers written as isolated
indirect objects and finished with `end(root)`, the cross-reference table has
exactly `1 + max(id)` entries, entry 0 is the fixed free sentinel, and for
every used identifier the entry is the zero-padded in-use entry whose 10
digits decode to the byte offset at which `<id> 0 obj` begins in the buffer.
(The size bound keeps every offset at 10 rendered digits.) -/
theorem xref_roundtrip_spec (w0 : PdfWriter) (objs : List (Ref × Buf)) (root : Ref)
    (hd : w0.depth = 0) (ho : w0.offsets = []) (hne : objs ≠ [])
    (hdist : (objs.map (fun p => p.1.val)).Pairwise (fun a b => a ≠ b))
    (hsz : w0.buf.length + (objsBytes objs).length < 10 ^ 10) :
    ∃ w' : PdfWriter,
      (writeObjs w0 objs).bind (fun w1 => PdfWriter.endDoc w1 root) = Except.ok w' ∧
      w'.buf = w0.buf ++ objsBytes objs ++ ("xref\n0 ").toList ++
        intStr (1 + maxIds (objs.map (fun p => p.1.val))) ++ [ '\n' ] ++
        (tableEntries (objOffsets w0.buf.length objs)
          (1 + maxIds (objs.map (fun p => p.1.val))).toNat).flatten ++
        trailerBytes w0.indent root (1 + maxIds (objs.map (fun p => p.1.val)))
          (w0.buf.length + (objsBytes objs).length) ∧
      (tableEntries (objOffsets w0.buf.length objs)
        (1 + maxIds (objs.map (fun p => p.1.val))).toNat).length =
        (1 + maxIds (objs.map (fun p => p.1.val))).toNat ∧
      (tableEntries (objOffsets w0.buf.length objs)
        (1 + maxIds (objs.map (fun p => p.1.val))).toNat).head? =
        some PdfWriter.freeLine ∧
      ∀ p ∈ objOffsets w0.buf.length objs,
        entryFor (objOffsets w0.buf.length objs) p.1.val = PdfWriter.nEntry p.2 ∧
        (pad10 p.2).length = 10 ∧ decodeDigits (pad10 p.2) = p.2 ∧
        matchesAt w'.buf p.2 (Ref.display p.1 ++ (" obj").toList) :=
  pipeline_spec w0 objs root hd ho hne hdist hsz

/-- Witness for C1: two objects with identifiers 1 and 3 from a fresh writer. -/
theorem xref_roundtrip_spec_witness :
    PdfWriter.new.depth = 0 ∧
    (∃ w' : PdfWriter,
      (writeObjs PdfWriter.new objsA).bind
          (fun w1 => PdfWriter.endDoc w1 refOne) = Except.ok w' ∧
      w'.buf = PdfWriter.new.buf ++ objsBytes objsA ++
        ("xref\n0 ").toList ++
        intStr (1 + maxIds (objsA.map (fun p => p.1.val))) ++
        [ '\n' ] ++
        (tableEntries (objOffsets PdfWriter.new.buf.length objsA)
          (1 + maxIds (objsA.map (fun p => p.1.val))).toNat).flatten ++
        trailerBytes PdfWriter.new.indent refOne
          (1 + maxIds (objsA.map (fun p => p.1.val)))
          (PdfWriter.new.buf.length + (objsBytes objsA).length) ∧
      (tableEntries (objOffsets PdfWriter.new.buf.length objsA)
        (1 + maxIds (objsA.map (fun p => p.1.val))).toNat).length =
        (1 + maxIds (objsA.map (fun p => p.1.val))).toNat ∧
      (tableEntries (objOffsets PdfWriter.new.buf.length objsA)
        (1 + maxIds (objsA.map (fun p => p.1.val))).toNat).head? =
        some PdfWriter.freeLine ∧
      ∀ p ∈ objOffsets PdfWriter.new.buf.length objsA,
        entryFor (objOffsets PdfWriter.new.buf.length objsA)
          p.1.val = PdfWriter.nEntry p.2 ∧
        (pad10 p.2).length = 10 ∧ decodeDigits (pad10 p.2) = p.2 ∧
        matchesAt w'.buf p.2 (Ref.display p.1 ++ (" obj").toList)) :=
  ⟨rfl, xref_roundtrip_spec PdfWriter.new objsA refOne rfl rfl
    (by decide) (by decide) (by decide)⟩

/-- C3: in the same setting, entry `j` of the table (ascending identifier
order) is the free sentinel `0000000000 65535 f` + CRLF for every identifier
never used (in particular all unused `j` between 1 and `max(id)`), and the
10-digit zero-padded in-use entry `<offset> 00000 n` + CRLF for every used
identifier. -/
theorem xref_entries_spec (w0 : PdfWriter) (objs : List (Ref × Buf)) (root : Ref)
    (hd : w0.depth = 0) (ho : w0.offsets = []) (hne : objs ≠ [])
    (hdist : (objs.map (fun p => p.1.val)).Pairwise (fun a b => a ≠ b))
    (hsz : w0.buf.length + (objsBytes objs).length < 10 ^ 10) :
    ∃ w' : PdfWriter,
      (writeObjs w0 objs).bind (fun w1 => PdfWriter.endDoc w1 root) = Except.ok w' ∧
      w'.buf = w0.buf ++ objsBytes objs ++ ("xref\n0 ").toList ++
        intStr (1 + maxIds (objs.map (fun p => p.1.val))) ++ [ '\n' ] ++
        (tableEntries (objOffsets w0.buf.length objs)
          (1 + maxIds (objs.map (fun p => p.1.val))).toNat).flatten ++
        trailerBytes w0.indent root (1 + maxIds (objs.map (fun p => p.1.val)))
          (w0.buf.length + (objsBytes objs).length) ∧
      (∀ j : Nat, j < (1 + maxIds (objs.map (fun p => p.1.val))).toNat →
        (tableEntries (objOffsets w0.buf.length objs)
          (1 + maxIds (objs.map (fun p => p.1.val))).toNat)[j]? =
          some (entryFor (objOffsets w0.buf.length objs) (j : Int))) ∧
      (∀ j : Nat, 1 ≤ j → (j : Int) ≤ maxIds (objs.map (fun p => p.1.val)) →
        (∀ p ∈ objOffsets w0.buf.length objs, p.1.val ≠ (j : Int)) →
        entryFor (objOffsets w0.buf.length objs) (j : Int) = PdfWriter.freeLine) ∧
      ∀ p ∈ objOffsets w0.buf.length objs,
        entryFor (objOffsets w0.buf.length objs) p.1.val =
          pad10 p.2 ++ (" 00000 n\r\n").toList ∧
        (pad10 p.2).length = 10 := by
  obtain ⟨w', hw1, hw2, _, _, hw5⟩ :=
    pipeline_spec w0 objs root hd ho hne hdist hsz
  refine ⟨w', hw1, hw2, ?_, ?_, ?_⟩
  · intro j hj
    unfold tableEntries
    simp [List.getElem?_range hj]
  · intro j _ _ hun
    exact entryFor_of_not_mem _ _ hun
  · intro p hp
    obtain ⟨h1, h2, _, _⟩ := hw5 p hp
    exact ⟨h1, h2⟩

/-- Witness for C3: a single object with identifier 3 (ids 1 and 2 unused). -/
theorem xref_entries_spec_witness :
    PdfWriter.new.depth = 0 ∧
    (∃ w' : PdfWriter,
      (writeObjs PdfWriter.new objsB).bind
          (fun w1 => PdfWriter.endDoc w1 refThree) = Except.ok w' ∧
      w'.buf = PdfWriter.new.buf ++ objsBytes objsB ++ ("xref\n0 ").toList ++
        intStr (1 + maxIds (objsB.map (fun p => p.1.val))) ++ [ '\n' ] ++
        (tableEntries (objOffsets PdfWriter.new.buf.length objsB)
          (1 + maxIds (objsB.map (fun p => p.1.val))).toNat).flatten ++
        trailerBytes PdfWriter.new.indent refThree
          (1 + maxIds (objsB.map (fun p => p.1.val)))
          (PdfWriter.new.buf.length + (objsBytes objsB).length) ∧
      (∀ j : Nat, j < (1 + maxIds (objsB.map (fun p => p.1.val))).toNat →
        (tableEntries (objOffsets PdfWriter.new.buf.length objsB)
          (1 + maxIds (objsB.map (fun p => p.1.val))).toNat)[j]? =
          some (entryFor (objOffsets PdfWriter.new.buf.length objsB) (j : Int))) ∧
      (∀ j : Nat, 1 ≤ j → (j : Int) ≤ maxIds (objsB.map (fun p => p.1.val)) →
        (∀ p ∈ objOffsets PdfWriter.new.buf.length objsB, p.1.val ≠ (j : Int)) →
        entryFor (objOffsets PdfWriter.new.buf.length objsB) (j : Int) =
          PdfWriter.freeLine) ∧
      ∀ p ∈ objOffsets PdfWriter.new.buf.length objsB,
        entryFor (objOffsets PdfWriter.new.buf.length objsB) p.1.val =
          pad10 p.2 ++ (" 00000 n\r\n").toList ∧
        (pad10 p.2).length = 10) :=
  ⟨rfl, xref_entries_spec PdfWriter.new objsB refThree rfl rfl
    (by decide) (by decide) (by decide)⟩

/-- C2: at depth 0, `end(root)` always succeeds; the computed table length is
`1 + max(id)` when objects were written, and an empty document produces the
one-entry table (just the id-0 sentinel) with trailer `Size` equal to 1. -/
theorem xref_len_spec :
    (∀ (w : PdfWriter) (root : Ref), w.depth = 0 → w.offsets ≠ [] →
      (PdfWriter.xref_table w).2.1 =
        1 + maxIds (w.offsets.map (fun p => p.1.val)) ∧
      (PdfWriter.endDoc w root).isOk = true) ∧
    (∀ (w : PdfWriter) (root : Ref), w.depth = 0 → w.offsets = [] →
      PdfWriter.endDoc w root = Except.ok
        ⟨w.buf ++ ("xref\n0 ").toList ++ intStr 1 ++ [ '\n' ] ++ PdfWriter.freeLine ++
            trailerBytes w.indent root 1 w.buf.length,
          [], 0, w.indent⟩) := by
  constructor
  · intro w root hd hne
    constructor
    · show (1 : Int) + _ = _
      rw [mergeSort_getLast_val w.offsets hne]
    · rw [endDoc_eq w root hd]
      rfl
  · intro w root hd ho
    rw [endDoc_eq w root hd]
    simp [tableBytes, xlen, ho, PdfWriter.xrefLines, List.append_assoc]

/-- Witness for C2: a writer with one recorded object, and an empty writer. -/
theorem xref_len_spec_witness :
    ((PdfWriter.xref_table ⟨[], [(refThree, 0)], 0, 0⟩).2.1 =
      1 + maxIds ([((refThree : Ref), (0 : Nat))].map (fun p => p.1.val)) ∧
      (PdfWriter.endDoc ⟨[], [(refThree, 0)], 0, 0⟩ refOne).isOk = true) ∧
    PdfWriter.endDoc PdfWriter.new refOne = Except.ok
      ⟨PdfWriter.new.buf ++ ("xref\n0 ").toList ++ intStr 1 ++ [ '\n' ] ++
          PdfWriter.freeLine ++ trailerBytes PdfWriter.new.indent refOne 1
            PdfWriter.new.buf.length,
        [], 0, PdfWriter.new.indent⟩ :=
  ⟨xref_len_spec.1 ⟨[], [(refThree, 0)], 0, 0⟩ refOne rfl (by simp),
    xref_len_spec.2 PdfWriter.new refOne rfl rfl⟩

/-- C4: after the cross-reference table, `end(root)` appends exactly the
`trailer` keyword, a dictionary with exactly the two keys `Size` (the table
length) and `Root` (`<root> 0 R`) in that order, `startxref`, the decimal
offset of the `xref` keyword — the buffer at that offset indeed starts with
`xref` — and `%%EOF` (see `trailerBytes` and `tableBytes` for the exact
bytes). -/
theorem trailer_spec (w : PdfWriter) (root : Ref) (h : w.depth = 0) :
    ∃ w' : PdfWriter, PdfWriter.endDoc w root = Except.ok w' ∧
      w'.buf = w.buf ++ tableBytes w.offsets ++
        trailerBytes w.indent root (xlen w.offsets) w.buf.length ∧
      matchesAt w'.buf w.buf.length (("xref").toList) := by
  refine ⟨_, endDoc_eq w root h, rfl, ?_⟩
  have hsplit : w.buf ++ tableBytes w.offsets ++
      trailerBytes w.indent root (xlen w.offsets) w.buf.length =
      w.buf ++ (("xref").toList ++
        (("\n0 ").toList ++ intStr (xlen w.offsets) ++ [ '\n' ] ++ PdfWriter.freeLine ++
          PdfWriter.xrefLines (w.offsets.mergeSort PdfWriter.sortLe) 1 ++
          trailerBytes w.indent root (xlen w.offsets) w.buf.length)) := by
    have hlit : ("xref\n0 ").toList = ("xref").toList ++ ("\n0 ").toList := by decide
    simp [tableBytes, hlit, List.append_assoc]
  show matchesAt _ w.buf.length _
  rw [hsplit]
  exact matchesAt_layout w.buf _ _

/-- Witness for C4: a writer with one recorded object at offset 0. -/
theorem trailer_spec_witness :
    ∃ w' : PdfWriter,
      PdfWriter.endDoc ⟨[], [(refOne, 0)], 0, 0⟩ refOne = Except.ok w' ∧
      w'.buf = ([] : Buf) ++ tableBytes [(refOne, 0)] ++
        trailerBytes 0 refOne (xlen [(refOne, 0)]) ([] : Buf).length ∧
      matchesAt w'.buf ([] : Buf).length (("xref").toList) :=
  trailer_spec ⟨[], [(refOne, 0)], 0, 0⟩ refOne rfl

/-- C5: opening an indirect object (`PdfWriter::obj` / `start_indirect`) while
the nesting depth is nonzero fails before any byte is appended: the panic
(`error`) carries exactly the pre-call state — same buffer, same offset table,
same depth. -/
theorem obj_nested_panics (w : PdfWriter) (id : Ref) (h : w.depth ≠ 0) :
    PdfWriter.obj w id = Except.error w ∧
    (resW (PdfWriter.obj w id)).buf = w.buf ∧
    (resW (PdfWriter.obj w id)).offsets = w.offsets ∧
    (resW (PdfWriter.obj w id)).depth = w.depth := by
  have : PdfWriter.obj w id = Except.error w := by
    simp [PdfWriter.obj, PdfWriter.start_indirect, h]
  exact ⟨this, by rw [this]; rfl, by rw [this]; rfl, by rw [this]; rfl⟩

/-- Witness for C5 at the concrete state `⟨[], [], 1, 0⟩`. -/
theorem obj_nested_panics_witness :
    PdfWriter.obj ⟨[], [], 1, 0⟩ refOne = Except.error ⟨[], [], 1, 0⟩ :=
  (obj_nested_panics ⟨[], [], 1, 0⟩ refOne (by decide)).1

/-- C6: `Ref::new` panics (returns `none`) on every `id ≤ 0`, succeeds on every
`id ≥ 1` with `get` returning `id`, and two references are equal iff their
underlying integers are equal. -/
theorem ref_new_spec :
    (∀ id : Int, id ≤ 0 → Ref.new id = none) ∧
    (∀ id : Int, 1 ≤ id → ∃ r : Ref, Ref.new id = some r ∧ r.get = id) ∧
    (∀ r s : Ref, r = s ↔ r.get = s.get) := by
  refine ⟨?_, ?_, ?_⟩
  · intro id h
    simp [Ref.new]
    omega
  · intro id h
    have hpos : 0 < id := by omega
    exact ⟨⟨id, hpos⟩, by simp [Ref.new, hpos], rfl⟩
  · intro r s
    constructor
    · intro h; rw [h]
    · intro h; cases r; cases s; cases h; rfl

/-- Witness for C6 at `id = -7` and `id = 5`. -/
theorem ref_new_spec_witness :
    Ref.new (-7) = none ∧ (∃ r : Ref, Ref.new 5 = some r ∧ r.get = 5) :=
  ⟨ref_new_spec.1 (-7) (by decide), ref_new_spec.2.1 5 (by decide)⟩

/-- C8: for an array writer, `len` equals the number of `item()` calls made,
whatever bytes were written into the item slots, and a single separating space
is emitted before every item except the first. -/
theorem array_len_spec (w : PdfWriter) (indirect : Bool) (bodies : List Buf) :
    ArrayW.length (runItems (ArrayW.start w indirect).1 (ArrayW.start w indirect).2 bodies).2 =
      bodies.length ∧
    (runItems (ArrayW.start w indirect).1 (ArrayW.start w indirect).2 bodies).1.buf =
      w.buf ++ [ '[' ] ++ joinItems bodies := by
  cases bodies with
  | nil => simp [runItems, ArrayW.start, ArrayW.length, joinItems]
  | cons b rest =>
      have h := runItems_of_pos rest
        (PdfWriter.write (ArrayW.item (ArrayW.start w indirect).1 (ArrayW.start w indirect).2).1 b)
        (ArrayW.item (ArrayW.start w indirect).1 (ArrayW.start w indirect).2).2
        (by simp [ArrayW.item, ArrayW.start])
      refine ⟨?_, ?_⟩
      · simp only [runItems, ArrayW.length]
        rw [h.1]
        simp [ArrayW.item, ArrayW.start]
        omega
      · simp only [runItems]
        rw [h.2]
        simp [ArrayW.item, ArrayW.start, joinItems, List.append_assoc]

/-- C9: writing a rectangle through a (non-indirect) value slot emits a
4-element array holding exactly the four coordinates in the order
`x1 y1 x2 y2`, for every scalar type and every formatting of the scalars. -/
theorem rect_spec (R : Type) (fmtReal : R → List Char) (w : PdfWriter) (x1 y1 x2 y2 : R) :
    (Object.rect fmtReal w false (Rect.new x1 y1 x2 y2)).buf =
      w.buf ++ [ '[' ] ++ fmtReal x1 ++ [ ' ' ] ++ fmtReal y1 ++ [ ' ' ] ++
        fmtReal x2 ++ [ ' ' ] ++ fmtReal y2 ++ [ ']' ] := by
  simp [Object.rect, ArrayW.start, ArrayW.item, ArrayW.drop, Object.real, Rect.new,
    List.append_assoc]

/-- C10: `into_buf` consumes the writer and returns exactly the accumulated
bytes, with no validation: it is total on every state, including one where an
indirect object is still open (in which case the partial document ends with
the object's `obj` line and whatever content was written). -/
theorem into_buf_total :
    (∀ w : PdfWriter, PdfWriter.into_buf w = w.buf) ∧
    (∀ (w : PdfWriter) (id : Ref) (w' : PdfWriter), PdfWriter.obj w id = Except.ok w' →
      PdfWriter.into_buf w' =
        PdfWriter.into_buf w ++ (Ref.display id ++ (" obj\n").toList)) := by
  refine ⟨fun _ => rfl, ?_⟩
  intro w id w' h
  unfold PdfWriter.obj PdfWriter.start_indirect at h
  by_cases hd : w.depth = 0
  · rw [if_pos hd] at h
    cases h
    rfl
  · rw [if_neg hd] at h
    cases h

/-- Witness for C10: a writer with one still-open indirect object. -/
theorem into_buf_total_witness :
    PdfWriter.obj PdfWriter.new refOne =
      Except.ok ⟨(Ref.display refOne ++ (" obj\n").toList), [(refOne, 0)], 1, 0⟩ ∧
    PdfWriter.into_buf ⟨(Ref.display refOne ++ (" obj\n").toList), [(refOne, 0)], 1, 0⟩ =
      PdfWriter.into_buf PdfWriter.new ++ (Ref.display refOne ++ (" obj\n").toList) := by
  have h : PdfWriter.obj PdfWriter.new refOne =
      Except.ok ⟨(Ref.display refOne ++ (" obj\n").toList), [(refOne, 0)], 1, 0⟩ := by
    simp [PdfWriter.obj, PdfWriter.start_indirect, PdfWriter.new, PdfWriter.write]
  exact ⟨h, into_buf_total.2 PdfWriter.new refOne _ h⟩

/-- C7: every operation of every writer only appends to the output buffer —
for each operation the buffer before the call is a prefix of the buffer after
the call (on the panic branches of `obj`/`start_indirect`/`end`, the state at
the panic has the unchanged buffer). -/
theorem append_only :
    (∀ (w : PdfWriter) (major minor : Nat), w.buf <+: (PdfWriter.start w major minor).buf) ∧
    (∀ (w : PdfWriter) (i : Nat), w.buf <+: (PdfWriter.set_indent w i).buf) ∧
    (∀ (w : PdfWriter) (s : Buf), w.buf <+: (PdfWriter.write w s).buf) ∧
    (∀ w : PdfWriter, w.buf <+: (PdfWriter.write_indent w).buf) ∧
    (∀ (w : PdfWriter) (id : Ref), w.buf <+: (resW (PdfWriter.start_indirect w id)).buf) ∧
    (∀ (w : PdfWriter) (id : Ref), w.buf <+: (resW (PdfWriter.obj w id)).buf) ∧
    (∀ w : PdfWriter, w.buf <+: (PdfWriter.end_indirect w).buf) ∧
    (∀ (w : PdfWriter) (v : Bool), w.buf <+: (Object.bool w v).buf) ∧
    (∀ (w : PdfWriter) (v : Int), w.buf <+: (Object.int w v).buf) ∧
    (∀ (R : Type) (fmtReal : R → List Char) (w : PdfWriter) (v : R),
      w.buf <+: (Object.real fmtReal w v).buf) ∧
    (∀ (w : PdfWriter) (n : List Char), w.buf <+: (Object.name w n).buf) ∧
    (∀ (w : PdfWriter) (id : Ref), w.buf <+: (Object.id w id).buf) ∧
    (∀ (R : Type) (fmtReal : R → List Char) (w : PdfWriter) (indirect : Bool) (r : Rect R),
      w.buf <+: (Object.rect fmtReal w indirect r).buf) ∧
    (∀ (w : PdfWriter) (indirect : Bool), w.buf <+: (ArrayW.start w indirect).1.buf) ∧
    (∀ (w : PdfWriter) (a : ArrayW), w.buf <+: (ArrayW.item w a).1.buf) ∧
    (∀ (w : PdfWriter) (a : ArrayW), w.buf <+: (ArrayW.drop w a).buf) ∧
    (∀ (w : PdfWriter) (indirect : Bool), w.buf <+: (DictW.start w indirect).1.buf) ∧
    (∀ (w : PdfWriter) (d : DictW) (k : List Char), w.buf <+: (DictW.key w d k).1.buf) ∧
    (∀ (w : PdfWriter) (d : DictW), w.buf <+: (DictW.drop w d).buf) ∧
    (∀ w : PdfWriter, w.buf <+: (PdfWriter.xref_table w).1.buf) ∧
    (∀ (w : PdfWriter) (root : Ref) (xref_len : Int) (xref_offset : Nat),
      w.buf <+: (PdfWriter.trailer w root xref_len xref_offset).buf) ∧
    (∀ (w : PdfWriter) (root : Ref), w.buf <+: (resW (PdfWriter.endDoc w root)).buf) := by
  have hw : ∀ (w : PdfWriter) (s : Buf), w.buf <+: (PdfWriter.write w s).buf :=
    fun w s => List.prefix_append w.buf s
  have hsi : ∀ (w : PdfWriter) (id : Ref), w.buf <+: (resW (PdfWriter.start_indirect w id)).buf := by
    intro w id
    unfold PdfWriter.start_indirect
    by_cases hd : w.depth = 0
    · rw [if_pos hd]; simp [resW, PdfWriter.write]
    · rw [if_neg hd]; simp [resW]
  have hei : ∀ w : PdfWriter, w.buf <+: (PdfWriter.end_indirect w).buf := by
    intro w; simp [PdfWriter.end_indirect, PdfWriter.write]
  have hdd : ∀ (w : PdfWriter) (d : DictW), w.buf <+: (DictW.drop w d).buf := by
    intro w d
    unfold DictW.drop
    by_cases hi : d.indirect
    · simp only [hi, if_true]
      refine List.IsPrefix.trans ?_ (hei _)
      simp [PdfWriter.write, PdfWriter.write_indent, List.append_assoc]
    · simp [hi, PdfWriter.write, PdfWriter.write_indent, List.append_assoc]
  have had : ∀ (w : PdfWriter) (a : ArrayW), w.buf <+: (ArrayW.drop w a).buf := by
    intro w a
    unfold ArrayW.drop
    by_cases hi : a.indirect
    · simp only [hi, if_true]
      refine List.IsPrefix.trans ?_ (hei _)
      simp [PdfWriter.write]
    · simp [hi, PdfWriter.write]
  have htr : ∀ (w : PdfWriter) (root : Ref) (xref_len : Int) (xref_offset : Nat),
      w.buf <+: (PdfWriter.trailer w root xref_len xref_offset).buf := by
    intro w root xref_len xref_offset
    unfold PdfWriter.trailer
    refine List.IsPrefix.trans ?_ (hw _ _)
    refine List.IsPrefix.trans ?_ (hw _ _)
    refine List.IsPrefix.trans ?_ (hw _ _)
    refine List.IsPrefix.trans ?_ (hdd _ _)
    simp [DictW.start, DictW.key, Object.int, Object.id, PdfWriter.write,
      PdfWriter.write_indent, List.append_assoc]
  have hxr : ∀ w : PdfWriter, w.buf <+: (PdfWriter.xref_table w).1.buf := by
    intro w
    simp [PdfWriter.xref_table, PdfWriter.write, List.append_assoc]
  refine ⟨fun w major minor => hw _ _, fun w i => List.prefix_refl _, hw, ?_, hsi, hsi, hei,
    ?_, ?_, ?_, ?_, ?_, ?_, ?_, ?_, had, ?_, ?_, hdd, hxr, htr, ?_⟩
  · intro w; simp [PdfWriter.write_indent]
  · intro w v; exact hw _ _
  · intro w v; exact hw _ _
  · intro R fmtReal w v; exact hw _ _
  · intro w n; exact hw _ _
  · intro w id; exact hw _ _
  · intro R fmtReal w indirect r
    unfold Object.rect
    refine List.IsPrefix.trans ?_ (had _ _)
    simp [ArrayW.start, ArrayW.item, Object.real, PdfWriter.write, List.append_assoc]
  · intro w indirect; exact hw _ _
  · intro w a; exact hw _ _
  · intro w indirect
    simp [DictW.start, PdfWriter.write, PdfWriter.write_indent, List.append_assoc]
  · intro w d k
    simp [DictW.key, PdfWriter.write, PdfWriter.write_indent, List.append_assoc]
  · intro w root
    unfold PdfWriter.endDoc
    by_cases hd : w.depth = 0
    · rw [if_pos hd]
      simp only [resW]
      exact List.IsPrefix.trans (hxr w) (htr _ _ _ _)
    · rw [if_neg hd]; simp [resW]

end Pdf
